import Mathlib

/-!
Verification of the-recited-mushaf's feed extraction and search core

This file embeds the core logic of the repository — the Arabic text
normalizer and search filter of `src/components/PodcastPlayer.tsx` and the
RSS feed extractor / title parser `getPodcastEpisodes` of
`src/actions/getPodcastEpisodes.ts` — as executable Lean definitions, and
proves the specified properties about them.

A JavaScript string is modelled as its sequence of Unicode code points
(`Str := List Nat`); every character involved here lies in the Basic
Multilingual Plane, so code points coincide with UTF-16 code units.
-/

/-- A JavaScript string, as its sequence of Unicode code points. -/
abbrev Str := List Nat

/-- Coerce a Lean string literal to the code-point model. -/
def ofString (s : String) : Str := s.data.map Char.toNat

/-- JavaScript truthiness of a string: non-empty. -/
def strTruthy : Str → Bool
  | [] => false
  | _ :: _ => true

/-- Does `s` start with `pat`? (`String.prototype.startsWith`, also the
single-position step of substring search). -/
def strStartsWith : Str → Str → Bool
  | [], _ => true
  | _ :: _, [] => false
  | p :: ps, c :: cs => p == c && strStartsWith ps cs

/-- JavaScript's `hay.includes(needle)`: substring containment. -/
def strContains (hay needle : Str) : Bool :=
  match hay with
  | [] => strStartsWith needle []
  | _ :: rest => strStartsWith needle hay || strContains rest needle

/-- Code points treated as whitespace by `String.prototype.trim` (the
subset relevant to feed text: ASCII whitespace, NBSP, BOM, LS, PS). -/
def isWsJS (n : Nat) : Bool :=
  n == 32 || n == 9 || n == 10 || n == 11 || n == 12 || n == 13 ||
    n == 0xA0 || n == 0xFEFF || n == 0x2028 || n == 0x2029

/-- JavaScript's `String.prototype.trim`: strip whitespace from both ends. -/
def trimStr (s : Str) : Str :=
  ((s.dropWhile isWsJS).reverse.dropWhile isWsJS).reverse

/-- One global-replacement pass of `s.replace(pat, rep)` with a literal
pattern, non-overlapping and left-to-right; structural in a fuel argument
so that it evaluates by kernel reduction. -/
def replaceAllFuel (pat rep : Str) : Nat → Str → Str
  | _, [] => []
  | 0, s => s
  | fuel + 1, c :: rest =>
    if pat ≠ [] ∧ strStartsWith pat (c :: rest) then
      rep ++ replaceAllFuel pat rep fuel (List.drop (pat.length - 1) rest)
    else
      c :: replaceAllFuel pat rep fuel rest

/-- JavaScript's `s.replace(/pat/g, rep)` for a literal, non-empty pattern. -/
def replaceAllStr (pat rep s : Str) : Str := replaceAllFuel pat rep s.length s

/-- JavaScript's `s.split(sep)` generalized to a character predicate; JavaScript
semantics: `"".split` is `[""]`, separators at the ends produce empty
segments. -/
def splitOnPred (p : Nat → Bool) : Str → List Str
  | [] => [[]]
  | c :: rest =>
    match splitOnPred p rest with
    | [] => [[c]]
    | s :: ss => if p c then [] :: s :: ss else (c :: s) :: ss

/-- ASCII lowercasing of one code point; `String.prototype.toLowerCase`
restricted to the ASCII range (the only cased characters that occur in
this development — Arabic script is uncased). -/
def toLowerCP (n : Nat) : Nat := if 65 ≤ n ∧ n ≤ 90 then n + 32 else n

/-- JavaScript's `s.toLowerCase()`. -/
def lowerStr (s : Str) : Str := s.map toLowerCP

/-! ## The text normalizer (`normalizeArabic`, PodcastPlayer.tsx lines 67–74) -/

/-- The step `text.replace(/([أإآ])/g, "ا")` as a per-character map: the
hamza-bearing alef variants U+0623, U+0625, U+0622 become bare alef U+0627. -/
def mapAlef (n : Nat) : Nat :=
  if n = 0x623 ∨ n = 0x625 ∨ n = 0x622 then 0x627 else n

/-- The step `text.replace(/(ة)/g, "ه")`: taa marbuta U+0629 becomes haa U+0647. -/
def mapTaa (n : Nat) : Nat := if n = 0x629 then 0x647 else n

/-- The step `text.replace(/(ى)/g, "ي")`: alef maksura U+0649 becomes yaa U+064A. -/
def mapYaa (n : Nat) : Nat := if n = 0x649 then 0x64A else n

/-- The step `text.replace(/[ً-ٟ]/g, "")`: the Arabic diacritic range. -/
def isDiacritic (n : Nat) : Bool := decide (0x64B ≤ n ∧ n ≤ 0x65F)

/-- The `normalizeArabic` helper of PodcastPlayer.tsx: alef unification,
taa marbuta to haa, alef maksura to yaa, diacritic stripping, lowercasing,
in that order. -/
def normalizeArabic (s : Str) : Str :=
  ((((s.map mapAlef).map mapTaa).map mapYaa).filter
      (fun n => !isDiacritic n)).map toLowerCP

/-- Per-character action of `normalizeArabic`: `none` when the character
is stripped. -/
def normChar (n : Nat) : Option Nat :=
  if isDiacritic (mapYaa (mapTaa (mapAlef n))) then none
  else some (toLowerCP (mapYaa (mapTaa (mapAlef n))))

/-! ### Spec-side restatement of the normalizer (spec §4.1, for claim C7)

The five transformations in the spec's order, with the diacritics given
extensionally: the claim's "combining diacritical marks in the Arabic
diacritics block" is formalised as the Arabic tashkeel range
U+064B–U+065F, which is what the source strips. -/

/-- Spec §4.1 step 1: hamza-bearing alef variants to bare alef. -/
def specStep1 (s : Str) : Str :=
  s.map (fun n => if n = 0x623 ∨ n = 0x625 ∨ n = 0x622 then 0x627 else n)

/-- Spec §4.1 step 2: taa marbuta to haa. -/
def specStep2 (s : Str) : Str := s.map (fun n => if n = 0x629 then 0x647 else n)

/-- Spec §4.1 step 3: alef maksura to yaa. -/
def specStep3 (s : Str) : Str := s.map (fun n => if n = 0x649 then 0x64A else n)

/-- The combining diacritical marks of the Arabic diacritics range,
enumerated: fathatan through the wavy hamza below (U+064B–U+065F). -/
def arabicDiacriticsCPs : List Nat :=
  [0x64B, 0x64C, 0x64D, 0x64E, 0x64F, 0x650, 0x651, 0x652, 0x653, 0x654,
    0x655, 0x656, 0x657, 0x658, 0x659, 0x65A, 0x65B, 0x65C, 0x65D, 0x65E,
    0x65F]

/-- Spec §4.1 step 4: strip all of those marks. -/
def specStep4 (s : Str) : Str :=
  s.filter (fun n => decide (n ∉ arabicDiacriticsCPs))

/-- Spec §4.1 step 5: lowercase the result. -/
def specStep5 (s : Str) : Str := s.map toLowerCP

/-- The spec's normalizer: the five steps applied in order. -/
def specNormalize (s : Str) : Str :=
  specStep5 (specStep4 (specStep3 (specStep2 (specStep1 s))))

/-! ## The title parser (getPodcastEpisodes.ts lines 40–72) -/

/-- The Arabic chapter marker `"سورة"`. -/
def arabicMarker : Str := ofString "سورة"

/-- The English chapter marker `"surah"` (compared case-insensitively). -/
def englishMarker : Str := ofString "surah"

/-- The Arabic "unknown reciter" literal. -/
def unknownAr : Str := ofString "القارئ غير معروف"

/-- The English "unknown reciter" literal. -/
def unknownEn : Str := ofString "Unknown"

/-- The "general recitations" sentinel reciter. -/
def generalSentinel : Str := ofString "تلاوات عامة"

/-- Predicate of `parts.findIndex((p) => p.includes("سورة"))`. -/
def pArabicMarker (p : Str) : Bool := strContains p arabicMarker

/-- Predicate of `parts.findIndex((p) => p.toLowerCase().includes("surah"))`. -/
def pEnglishMarker (p : Str) : Bool := strContains (lowerStr p) englishMarker

/-- JavaScript's `Array.prototype.findIndex`, with `none` for the `-1` sentinel. -/
def findIndexO (p : α → Bool) : List α → Option Nat
  | [] => none
  | x :: xs => if p x then some 0 else (findIndexO p xs).map (· + 1)

/-- JavaScript's `Array.prototype.filter` with the index argument: keep the elements
whose index satisfies `keep`; `i` is the index of the first element. -/
def filterIdx (keep : Nat → Bool) : Nat → List α → List α
  | _, [] => []
  | i, x :: xs =>
    if keep i then x :: filterIdx keep (i + 1) xs else filterIdx keep (i + 1) xs

/-- JavaScript's `Array.prototype.join(sep)`. -/
def joinWith (sep : Str) : List Str → Str
  | [] => []
  | [x] => x
  | x :: y :: xs => x ++ sep ++ joinWith sep (y :: xs)

/-- The segment list of a raw title: replace every `" - "` by `" | "`,
split on `"|"` (U+007C) and trim each segment. -/
def parseParts (fullTitle : Str) : List Str :=
  (splitOnPred (fun c => c == 0x7C)
      (replaceAllStr (ofString " - ") (ofString " | ") fullTitle)).map trimStr

/-- The chapter label chosen from the segments: the segment at the first
Arabic-marker index; if that leaves `surah` empty (falsy) and an
English-marker segment exists, that segment instead. -/
def surahOf (parts : List Str) : Str :=
  let s0 := match findIndexO pArabicMarker parts with
    | some i => parts.getD i []
    | none => []
  if strTruthy s0 then s0
  else
    match findIndexO pEnglishMarker parts with
    | some i => parts.getD i []
    | none => s0

/-- The reciter label before fallback and sentinel substitution: the
space-join of the segments whose index is neither marker index, trimmed
(`reciterParts.join(" ").trim()`). -/
def reciterJoinOf (parts : List Str) : Str :=
  trimStr (joinWith [32]
    (filterIdx
      (fun i =>
        !(findIndexO pArabicMarker parts == some i) &&
          !(findIndexO pEnglishMarker parts == some i))
      0 parts))

/-- The title parser before sentinel substitution, as the pair
`(surah, reciter)`: when no chapter label was identified and at least one
segment exists, the fallback takes the first segment as chapter label and
joins the remaining segments (untrimmed) as the reciter. -/
def parseCore (fullTitle : Str) : Str × Str :=
  let parts := parseParts fullTitle
  let surah := surahOf parts
  if strTruthy surah then (surah, reciterJoinOf parts)
  else if parts.length > 0 then
    (parts.getD 0 [], joinWith [32] (parts.drop 1))
  else (surah, reciterJoinOf parts)

/-- Sentinel substitution: an empty (falsy) reciter or a recognized
"unknown" literal becomes the "general recitations" sentinel. -/
def applySentinel (r : Str) : Str :=
  if !strTruthy r || r == unknownAr || r == unknownEn then generalSentinel
  else r

/-- The full title parser: `(surah, reciter)` as stored in an Episode. -/
def parseTitle (fullTitle : Str) : Str × Str :=
  ((parseCore fullTitle).1, applySentinel (parseCore fullTitle).2)

/-! ## The feed extractor (getPodcastEpisodes.ts lines 11–108)

The item loop and per-item field extraction use JavaScript regexes with
lazy groups over literal delimiters; they are modelled by leftmost-shortest
scanning functions. `.` in those patterns does not match a line
terminator, hence the newline abort in `takeUntilStop`; `[\s\S]` in the
item pattern does, hence `splitFirstAt` has no such abort. -/

/-- An episode record, as assembled by the extractor. -/
structure Episode where
  id : Str
  title : Str
  reciter : Str
  surah : Str
  url : Str
  image : Str
  duration : Str
  deriving DecidableEq, Repr

/-- JavaScript line terminators, which `.` does not match. -/
def isLineTerm (n : Nat) : Bool :=
  n == 10 || n == 13 || n == 0x2028 || n == 0x2029

/-- Shortest split of `s` as `cap ++ post ++ rest` with no line terminator
in `cap` (the lazy `(.*?)post` step of a match attempt); `none` when no
such split exists. -/
def takeUntilStop (post : Str) : Str → Option (Str × Str)
  | [] => if strStartsWith post [] then some ([], []) else none
  | c :: rest =>
    if strStartsWith post (c :: rest) then
      some ([], List.drop post.length (c :: rest))
    else if isLineTerm c then none
    else
      match takeUntilStop post rest with
      | some (cap, r) => some (c :: cap, r)
      | none => none

/-- JavaScript's `s.match(/pre(.*?)post/)`: the capture of the leftmost match, lazily
shortest, `.` not matching line terminators; `pre` and `post` are
non-empty literals. -/
def matchCapture (pre post : Str) : Str → Option Str
  | [] => none
  | c :: rest =>
    if strStartsWith pre (c :: rest) then
      match takeUntilStop post (List.drop pre.length (c :: rest)) with
      | some (cap, _) => some cap
      | none => matchCapture pre post rest
    else matchCapture pre post rest

/-- First split of `s` as `before ++ pat ++ after` (any characters in
`before`): one step of the `[\s\S]*?` item scan. -/
def splitFirstAt (pat : Str) : Str → Option (Str × Str)
  | [] => if strStartsWith pat [] then some ([], []) else none
  | c :: rest =>
    if strStartsWith pat (c :: rest) then
      some ([], List.drop pat.length (c :: rest))
    else
      match splitFirstAt pat rest with
      | some (pre, post) => some (c :: pre, post)
      | none => none

/-- The repeated `itemRegex.exec` loop over `/<item>([\s\S]*?)<\/item>/g`:
the captured contents of the successive non-overlapping lazy matches.
Structural in a fuel argument so that it evaluates by kernel reduction;
each round consumes at least the `<item>` delimiter, so `s.length` fuel
suffices. -/
def findItemsFuel : Nat → Str → List Str
  | 0, _ => []
  | fuel + 1, s =>
    match splitFirstAt (ofString "<item>") s with
    | none => []
    | some (_, rest) =>
      match splitFirstAt (ofString "</item>") rest with
      | none => []
      | some (content, rest2) => content :: findItemsFuel fuel rest2

/-- All item contents of the feed text. -/
def findItems (s : Str) : List Str := findItemsFuel s.length s

/-- The extracted title of an item: the CDATA-wrapped form when present,
else the plain form, else `"Unknown Title"`. -/
def titleOf (content : Str) : Str :=
  match matchCapture (ofString "<title><![CDATA[") (ofString "]]></title>") content with
  | some t => t
  | none =>
    match matchCapture (ofString "<title>") (ofString "</title>") content with
    | some t => t
    | none => ofString "Unknown Title"

/-- The match `content.match(/<guid.*?>(.*?)<\/guid>/)`: scan for `<guid`, lazily
reach the first `>`, then capture lazily up to `</guid>`. (The real
engine would also retry later `>` positions when the second group fails;
no claim concerns the `id` field, which is the only consumer.) -/
def matchGuidId : Str → Option Str
  | [] => none
  | c :: rest =>
    if strStartsWith (ofString "<guid") (c :: rest) then
      match takeUntilStop (ofString ">") (List.drop 5 (c :: rest)) with
      | some (_, afterGt) =>
        match takeUntilStop (ofString "</guid>") afterGt with
        | some (cap, _) => some cap
        | none => matchGuidId rest
      | none => matchGuidId rest
    else matchGuidId rest

/-- The channel-level default artwork:
`xmlText.match(/<itunes:image href="(.*?)"/)`, empty when absent. -/
def channelImageOf (xmlText : Str) : Str :=
  (matchCapture (ofString "<itunes:image href=\"") (ofString "\"") xmlText).getD []

/-- Assemble the Episode of one item content. `fallbackId` stands for the
`Math.random().toString()` value used when the guid is missing. -/
def processItem (channelImage fallbackId content : Str) : Episode :=
  let fullTitle := titleOf content
  { id := (matchGuidId content).getD fallbackId
    title := fullTitle
    surah := (parseTitle fullTitle).1
    reciter := (parseTitle fullTitle).2
    url := (matchCapture (ofString "<enclosure url=\"") (ofString "\"") content).getD []
    image := (matchCapture (ofString "<itunes:image href=\"") (ofString "\"") content).getD channelImage
    duration := (matchCapture (ofString "<itunes:duration>") (ofString "</itunes:duration>") content).getD (ofString "00:00") }

/-- The item loop: process each item and push it exactly when its audio
URL is truthy. `randIds k` stands for the random id drawn at iteration
`k`. -/
def extractLoop (channelImage : Str) (randIds : Nat → Str) : Nat → List Str → List Episode
  | _, [] => []
  | k, content :: rest =>
    let e := processItem channelImage (randIds k) content
    if strTruthy e.url then e :: extractLoop channelImage randIds (k + 1) rest
    else extractLoop channelImage randIds (k + 1) rest

/-- The whole-feed extraction over a successfully fetched body. -/
def extractEpisodes (randIds : Nat → Str) (xmlText : Str) : List Episode :=
  extractLoop (channelImageOf xmlText) randIds 0 (findItems xmlText)

/-- All items processed, none dropped (for stating the admission filter). -/
def processedAll (channelImage : Str) (randIds : Nat → Str) : Nat → List Str → List Episode
  | _, [] => []
  | k, content :: rest =>
    processItem channelImage (randIds k) content ::
      processedAll channelImage randIds (k + 1) rest

/-- The outcome of `fetch(RSS_URL)` as seen by the try block: a thrown
network error, or a response with its `ok` flag and body text. -/
inductive FetchOutcome where
  | fetchFailure : FetchOutcome
  | response (ok : Bool) (body : Str) : FetchOutcome

/-- The whole `getPodcastEpisodes`: a fetch failure is caught and yields `[]`; a
non-ok response throws inside the try block and is likewise caught; an ok
response is parsed by the extractor. Total — no outcome raises. -/
def getPodcastEpisodes (randIds : Nat → Str) : FetchOutcome → List Episode
  | .fetchFailure => []
  | .response ok body => if ok then extractEpisodes randIds body else []

/-! ## The search/filter engine (PodcastPlayer.tsx lines 177–232) -/

/-- The query terms: normalize the query, split on `" "` (the single
space character U+0020), keep the non-empty terms. -/
def queryTermsOf (q : Str) : List Str :=
  (splitOnPred (fun c => c == 32) (normalizeArabic q)).filter
    (fun t => decide (0 < t.length))

/-- Does an episode match the query: every term occurs as a substring of
`normalizedSurah ++ " " ++ normalizedReciter`. -/
def episodeQueryPred (q : Str) (e : Episode) : Bool :=
  (queryTermsOf q).all
    (fun term =>
      strContains (normalizeArabic e.surah ++ [32] ++ normalizeArabic e.reciter) term)

/-- The surah-search stage of `filteredEpisodes`: filter only when the
query is truthy. -/
def queryFilterStage (episodes : List Episode) (q : Str) : List Episode :=
  if strTruthy q then episodes.filter (episodeQueryPred q) else episodes

/-- The reciter stage of `filteredEpisodes`: filter only when the
selection is not the `"All"` sentinel. -/
def reciterFilterStage (episodes : List Episode) (selectedReciter : Str) : List Episode :=
  if !(selectedReciter == ofString "All") then
    episodes.filter (fun e => e.reciter == selectedReciter)
  else episodes

/-- Modelled from the spec: `getSurahOrder` lives in
`src/utils/surahOrder.ts`, which is not among the provided sources. Per
spec §4.4 and the glossary it is a static lookup from chapter-name
spelling variants to the canonical 1..114 rank, unranked names receiving
a large sentinel so they sort last. Only the first three canonical
entries are materialised here. -/
def getSurahOrder (name : Str) : Nat :=
  if name == ofString "سورة الفاتحة" || name == ofString "الفاتحة" then 1
  else if name == ofString "سورة البقرة" || name == ofString "البقرة" then 2
  else if name == ofString "سورة آل عمران" || name == ofString "آل عمران" then 3
  else 999

/-- Stable insertion of an episode after all earlier episodes of equal or
smaller rank. -/
def insertByOrder (e : Episode) : List Episode → List Episode
  | [] => [e]
  | x :: xs =>
    if getSurahOrder x.surah ≤ getSurahOrder e.surah then x :: insertByOrder e xs
    else e :: x :: xs

/-- The call `result.sort((a, b) => getSurahOrder(a.surah) - getSurahOrder(b.surah))`:
the stable sort by canonical rank (ES2019 `Array.prototype.sort` is
stable). -/
def sortByOrder (l : List Episode) : List Episode :=
  l.foldl (fun acc e => insertByOrder e acc) []

/-- The `filteredEpisodes` memo, including the aliasing of `result` with
the `episodes` array: `Array.prototype.sort` sorts its receiver in place,
and `result` is the original array exactly when neither filter created a
fresh one. The second component is the content of the `episodes` array
after the computation. -/
def filteredEpisodesRun (episodes : List Episode) (selectedReciter surahSearch : Str) :
    List Episode × List Episode :=
  let freshArray := !(selectedReciter == ofString "All") || strTruthy surahSearch
  let result :=
    sortByOrder (queryFilterStage (reciterFilterStage episodes selectedReciter) surahSearch)
  (result, if freshArray then episodes else result)

/-- First-occurrence deduplication of `(reciter, image)` pairs, as built
by the `Map` in the `reciters` memo. -/
def dedupeReciters (seen : List Str) : List Episode → List (Str × Str)
  | [] => []
  | e :: rest =>
    if seen.contains e.reciter then dedupeReciters seen rest
    else (e.reciter, e.image) :: dedupeReciters (e.reciter :: seen) rest

/-- The `reciters` memo: deduplicated `(name, image)` pairs, filtered by
the reciter search — the escaped normalized query as a literal pattern
tested against the normalized name, or a raw lowercase containment. -/
def listReciters (episodes : List Episode) (reciterSearch : Str) : List (Str × Str) :=
  let allReciters := dedupeReciters [] episodes
  if strTruthy reciterSearch then
    allReciters.filter
      (fun r =>
        strContains (normalizeArabic r.1) (normalizeArabic reciterSearch) ||
          strContains (lowerStr r.1) (lowerStr reciterSearch))
  else allReciters

/-! ## Claim-side definitions (stated from the spec's words, for the
refinement claims) -/

/-- Follows the claim wording of C2: terms are obtained by splitting the
normalized query on whitespace (not only on the space character),
dropping empty terms. -/
def claimQueryTermsC2 (q : Str) : List Str :=
  (splitOnPred isWsJS (normalizeArabic q)).filter (fun t => decide (0 < t.length))

/-- Follows the claim wording of C2: the episode is kept when every such
term occurs in the normalization of `surah ++ " " ++ reciter`. -/
def claimKeepsC2 (q : Str) (e : Episode) : Bool :=
  (claimQueryTermsC2 q).all
    (fun term => strContains (normalizeArabic (e.surah ++ [32] ++ e.reciter)) term)

/-! ## Concrete inputs used by witnesses and counterexamples -/

/-- An episode whose surah is Al-Baqarah (with taa marbuta) and whose
reciter is the sentinel. -/
def epBaqara : Episode :=
  { id := ofString "1", title := ofString "سورة البقرة"
    surah := ofString "سورة البقرة", reciter := generalSentinel
    url := ofString "https://a/1.mp3", image := [], duration := ofString "00:00" }

/-- An episode whose surah is Al-Fatihah. -/
def epFatiha : Episode :=
  { id := ofString "2", title := ofString "سورة الفاتحة"
    surah := ofString "سورة الفاتحة", reciter := generalSentinel
    url := ofString "https://a/2.mp3", image := [], duration := ofString "00:00" }

/-- An episode with one-letter ASCII surah and reciter, used to separate
space-splitting from whitespace-splitting of the query. -/
def epAB : Episode :=
  { id := ofString "3", title := ofString "a | b"
    surah := ofString "a", reciter := ofString "b"
    url := ofString "https://a/3.mp3", image := [], duration := ofString "00:00" }

/-- A one-item feed whose item carries an enclosure URL. -/
def xmlOneItem : Str :=
  ofString "<item><title>x</title><enclosure url=\"u\"/></item>"

/-- The episode that `extractEpisodes` produces from `xmlOneItem` (guid
absent, so the id falls back to the drawn random id, here `[]`). -/
def epFromXmlOneItem : Episode :=
  { id := [], title := ofString "x", surah := ofString "x"
    reciter := generalSentinel, url := ofString "u", image := [],
    duration := ofString "00:00" }

-- Sanity examples (spec §8).
example :
    parseTitle (ofString "سورة البقرة | الشيخ محمد") =
      (ofString "سورة البقرة", ofString "الشيخ محمد") := by decide

example :
    parseTitle (ofString "Surah Al-Baqarah - Sheikh Ahmad") =
      (ofString "Surah Al-Baqarah", ofString "Sheikh Ahmad") := by decide

example :
    parseTitle (ofString "القارئ غير معروف") =
      (ofString "القارئ غير معروف", generalSentinel) := by decide

example : extractEpisodes (fun _ => []) xmlOneItem = [epFromXmlOneItem] := by decide

example :
    extractEpisodes (fun _ => [])
      (ofString "<item><title>x</title></item><item><title>y</title><enclosure url=\"v\"/></item>") =
      [{ id := [], title := ofString "y", surah := ofString "y",
         reciter := generalSentinel, url := ofString "v", image := [],
         duration := ofString "00:00" }] := by decide

example : queryFilterStage [epBaqara] (ofString "بقرة") = [epBaqara] := by decide

example : queryFilterStage [epAB] (ofString "a\tb") = [] := by decide

example : claimKeepsC2 (ofString "a\tb") epAB = true := by decide

example :
    (filteredEpisodesRun [epBaqara, epFatiha] (ofString "All") []).2 =
      [epFatiha, epBaqara] := by decide

/-! # Lemmas and claim theorems -/

/-! ## Basic string facts -/

theorem strTruthy_ne_nil {s : Str} (h : strTruthy s = true) : s ≠ [] := by
  cases s with
  | nil => exact absurd h (by decide)
  | cons c cs => exact List.cons_ne_nil c cs

theorem pArabicMarker_truthy {s : Str} (h : pArabicMarker s = true) :
    strTruthy s = true := by
  cases s with
  | nil => exact absurd h (by decide)
  | cons c cs => rfl

theorem pEnglishMarker_truthy {s : Str} (h : pEnglishMarker s = true) :
    strTruthy s = true := by
  cases s with
  | nil => exact absurd h (by decide)
  | cons c cs => rfl

/-! ## Normalizer lemmas -/

theorem normalizeArabic_eq_filterMap (s : Str) :
    normalizeArabic s = s.filterMap normChar := by
  induction s with
  | nil => rfl
  | cons c cs ih =>
    have key : normalizeArabic (c :: cs) =
        (match normChar c with
          | none => normalizeArabic cs
          | some m => m :: normalizeArabic cs) := by
      simp only [normalizeArabic, normChar, List.map_cons, List.filter_cons]
      by_cases h : isDiacritic (mapYaa (mapTaa (mapAlef c))) <;> simp [h]
    rw [key]
    cases h : normChar c <;> simp [List.filterMap_cons, h, ih]

theorem normChar_some (n m : Nat) (h : normChar n = some m) :
    isDiacritic (mapYaa (mapTaa (mapAlef n))) = false ∧
      m = toLowerCP (mapYaa (mapTaa (mapAlef n))) := by
  unfold normChar at h
  by_cases hd : isDiacritic (mapYaa (mapTaa (mapAlef n)))
  · rw [if_pos hd] at h
    exact absurd h (by simp)
  · rw [if_neg hd] at h
    exact ⟨by rwa [Bool.not_eq_true] at hd, (Option.some.inj h).symm⟩

theorem mapTaa_out (x : Nat) : mapTaa x = x ∨ mapTaa x = 0x647 := by
  unfold mapTaa; split_ifs <;> simp

theorem mapYaa_out (x : Nat) : mapYaa x = x ∨ mapYaa x = 0x64A := by
  unfold mapYaa; split_ifs <;> simp

theorem mapYaa_ne (x : Nat) : mapYaa x ≠ 0x649 := by
  unfold mapYaa; split_ifs <;> omega

theorem mapTaa_ne (x : Nat) : mapTaa x ≠ 0x629 := by
  unfold mapTaa; split_ifs <;> omega

theorem mapAlef_ne (x : Nat) :
    mapAlef x ≠ 0x623 ∧ mapAlef x ≠ 0x625 ∧ mapAlef x ≠ 0x622 := by
  unfold mapAlef; split_ifs <;> omega

theorem normChar_fix {n m : Nat} (h : normChar n = some m) :
    normChar m = some m := by
  obtain ⟨hd, hm⟩ := normChar_some n m h
  subst hm
  set k := mapYaa (mapTaa (mapAlef n)) with hk
  have h1 : k ≠ 0x649 := mapYaa_ne _
  have h2 : k ≠ 0x629 := by
    rcases mapYaa_out (mapTaa (mapAlef n)) with he | he <;> rw [hk, he]
    · exact mapTaa_ne _
    · omega
  have h3 : k ≠ 0x623 ∧ k ≠ 0x625 ∧ k ≠ 0x622 := by
    rcases mapYaa_out (mapTaa (mapAlef n)) with he | he
    · rcases mapTaa_out (mapAlef n) with he2 | he2
      · rw [hk, he, he2]; exact mapAlef_ne _
      · rw [hk, he, he2]; omega
    · rw [hk, he]; omega
  have hdr : ¬(0x64B ≤ k ∧ k ≤ 0x65F) := by
    simpa [isDiacritic] using hd
  by_cases hl : 65 ≤ k ∧ k ≤ 90
  · have hm : toLowerCP k = k + 32 := by unfold toLowerCP; rw [if_pos hl]
    rw [hm]
    have e1 : mapAlef (k + 32) = k + 32 := by
      unfold mapAlef; rw [if_neg]; omega
    have e2 : mapTaa (k + 32) = k + 32 := by
      unfold mapTaa; rw [if_neg]; omega
    have e3 : mapYaa (k + 32) = k + 32 := by
      unfold mapYaa; rw [if_neg]; omega
    have e4 : isDiacritic (k + 32) = false := by
      simp only [isDiacritic, decide_eq_false_iff_not]; omega
    have e5 : toLowerCP (k + 32) = k + 32 := by
      unfold toLowerCP; rw [if_neg]; omega
    simp [normChar, e1, e2, e3, e4, e5]
  · have hm : toLowerCP k = k := by unfold toLowerCP; rw [if_neg hl]
    rw [hm]
    have e1 : mapAlef k = k := by
      unfold mapAlef; rw [if_neg]; omega
    have e2 : mapTaa k = k := by unfold mapTaa; rw [if_neg h2]
    have e3 : mapYaa k = k := by unfold mapYaa; rw [if_neg h1]
    simp [normChar, e1, e2, e3, hd, hm]

theorem filterMap_normChar_idem (s : Str) :
    (s.filterMap normChar).filterMap normChar = s.filterMap normChar := by
  induction s with
  | nil => rfl
  | cons c cs ih =>
    cases h : normChar c with
    | none => simp [List.filterMap_cons, h, ih]
    | some m => simp [List.filterMap_cons, h, normChar_fix h, ih]

/-- C6: the text normalizer is a pure function that is idempotent —
`normalize(normalize(x)) == normalize(x)` for every string — and it
identifies hamza-variant spellings: `normalize("أحمد") == normalize("احمد")`. -/
theorem c6_normalize_idempotent :
    (∀ x : Str, normalizeArabic (normalizeArabic x) = normalizeArabic x) ∧
    normalizeArabic (ofString "أحمد") = normalizeArabic (ofString "احمد") := by
  constructor
  · intro x
    simp only [normalizeArabic_eq_filterMap]
    exact filterMap_normChar_idem x
  · decide

theorem not_isDiacritic_eq_not_mem (n : Nat) :
    (!isDiacritic n) = decide (n ∉ arabicDiacriticsCPs) := by
  have hiff : (0x64B ≤ n ∧ n ≤ 0x65F) ↔ n ∈ arabicDiacriticsCPs := by
    simp only [arabicDiacriticsCPs, List.mem_cons, List.not_mem_nil, or_false]
    omega
  by_cases h : n ∈ arabicDiacriticsCPs
  · simp [isDiacritic, hiff.mpr h, h]
  · have hr : ¬(0x64B ≤ n ∧ n ≤ 0x65F) := fun hc => h (hiff.mp hc)
    simp [isDiacritic, hr, h]

/-- C7: for every input string, the normalizer applies exactly these
transformations in this order: hamza-bearing alef variants to bare alef,
taa marbuta to haa, alef maksura to yaa, stripping of all combining marks
of the Arabic diacritics range, then lowercasing. -/
theorem c7_normalize_transformations (s : Str) :
    normalizeArabic s = specNormalize s := by
  show ((((s.map mapAlef).map mapTaa).map mapYaa).filter
      (fun n => !isDiacritic n)).map toLowerCP = _
  unfold specNormalize specStep5 specStep4 specStep3 specStep2 specStep1
  rw [List.filter_congr (fun x _ => not_isDiacritic_eq_not_mem x)]
  rfl

/-! ## Title-parser lemmas -/

theorem findIndexO_some {p : Str → Bool} {l : List Str} {i : Nat}
    (h : findIndexO p l = some i) : p (l.getD i []) = true := by
  induction l generalizing i with
  | nil => simp [findIndexO] at h
  | cons x xs ih =>
    simp only [findIndexO] at h
    by_cases hp : p x
    · rw [if_pos hp] at h
      obtain rfl : i = 0 := by simpa using h.symm
      simpa using hp
    · rw [if_neg hp] at h
      obtain ⟨j, hj, rfl⟩ := Option.map_eq_some'.mp h
      simpa [List.getD_cons_succ] using ih hj

theorem surahOf_arabic {parts : List Str} {i : Nat}
    (h : findIndexO pArabicMarker parts = some i) :
    surahOf parts = parts.getD i [] ∧ strTruthy (surahOf parts) = true := by
  have hp := findIndexO_some h
  have ht : strTruthy (parts.getD i []) = true := pArabicMarker_truthy hp
  have hs : surahOf parts = parts.getD i [] := by
    simp only [surahOf, h]
    rw [if_pos ht]
  exact ⟨hs, by rw [hs]; exact ht⟩

theorem surahOf_english {parts : List Str} {j : Nat}
    (ha : findIndexO pArabicMarker parts = none)
    (he : findIndexO pEnglishMarker parts = some j) :
    surahOf parts = parts.getD j [] ∧ strTruthy (surahOf parts) = true := by
  have hp := findIndexO_some he
  have ht : strTruthy (parts.getD j []) = true := pEnglishMarker_truthy hp
  have hs : surahOf parts = parts.getD j [] := by
    simp [surahOf, ha, he, strTruthy]
  exact ⟨hs, by rw [hs]; exact ht⟩

theorem surahOf_none {parts : List Str}
    (ha : findIndexO pArabicMarker parts = none)
    (he : findIndexO pEnglishMarker parts = none) :
    surahOf parts = [] := by
  simp [surahOf, ha, he, strTruthy]

theorem parseCore_of_truthy {t : Str}
    (h : strTruthy (surahOf (parseParts t)) = true) :
    parseCore t = (surahOf (parseParts t), reciterJoinOf (parseParts t)) := by
  simp [parseCore, h]

/-- C1 (amended): for every raw title whose segment list contains an
Arabic or an English chapter marker, the chapter label is the first
Arabic-marker segment, else the first English-marker segment, and the
reciter label before sentinel substitution is the trimmed space-join of
exactly the segments at neither marker index. (The unamended claim fails
on marker-less titles, where the fallback overrides this join — see the
counterexample.) -/
theorem c1_marker_title_parse (t : Str)
    (h : findIndexO pArabicMarker (parseParts t) ≠ none ∨
      findIndexO pEnglishMarker (parseParts t) ≠ none) :
    (∀ i, findIndexO pArabicMarker (parseParts t) = some i →
      (parseCore t).1 = (parseParts t).getD i []) ∧
    (findIndexO pArabicMarker (parseParts t) = none →
      ∀ j, findIndexO pEnglishMarker (parseParts t) = some j →
        (parseCore t).1 = (parseParts t).getD j []) ∧
    (parseCore t).2 = reciterJoinOf (parseParts t) := by
  have htruthy : strTruthy (surahOf (parseParts t)) = true := by
    cases ha : findIndexO pArabicMarker (parseParts t) with
    | some i => exact (surahOf_arabic ha).2
    | none =>
      cases he : findIndexO pEnglishMarker (parseParts t) with
      | some j => exact (surahOf_english ha he).2
      | none => simp [ha, he] at h
  have hcore := parseCore_of_truthy htruthy
  refine ⟨?_, ?_, by rw [hcore]⟩
  · intro i hi
    rw [hcore]
    exact (surahOf_arabic hi).1
  · intro ha j hj
    rw [hcore]
    exact (surahOf_english ha hj).1

/-- C1, counterexample to the unamended claim: on the marker-less title
`"abc | def"` the claimed pre-sentinel reciter (the space-join of all
non-marker segments, trimmed — here `"abc def"`) differs from what the
parser produces, because the fallback rule overrides it with `"def"`. -/
theorem c1_counterexample :
    (parseCore (ofString "abc | def")).2 = ofString "def" ∧
    reciterJoinOf (parseParts (ofString "abc | def")) = ofString "abc def" ∧
    (parseCore (ofString "abc | def")).2 ≠
      reciterJoinOf (parseParts (ofString "abc | def")) := by decide

theorem c1_witness :
    (parseCore (ofString "سورة البقرة | الشيخ محمد")).1 = ofString "سورة البقرة" ∧
    (parseCore (ofString "سورة البقرة | الشيخ محمد")).2 = ofString "الشيخ محمد" := by
  have h := c1_marker_title_parse (ofString "سورة البقرة | الشيخ محمد")
    (Or.inl (by decide))
  refine ⟨?_, ?_⟩
  · rw [h.1 0 (by decide)]; decide
  · rw [h.2.2]; decide

theorem replaceAllFuel_of_not_contains (pat rep : Str) :
    ∀ (fuel : Nat) (s : Str), strContains s pat = false →
      replaceAllFuel pat rep fuel s = s := by
  intro fuel
  induction fuel with
  | zero => intro s _; cases s <;> rfl
  | succ f ih =>
    intro s h
    cases s with
    | nil => rfl
    | cons c rest =>
      simp only [strContains, Bool.or_eq_false_iff] at h
      simp only [replaceAllFuel]
      rw [if_neg, ih rest h.2]
      rintro ⟨-, hsw⟩
      rw [h.1] at hsw
      exact absurd hsw (by decide)

theorem replaceAllStr_of_not_contains {pat rep s : Str}
    (h : strContains s pat = false) : replaceAllStr pat rep s = s :=
  replaceAllFuel_of_not_contains pat rep s.length s h

theorem splitOnPred_single (p : Nat → Bool) :
    ∀ s : Str, (∀ c ∈ s, p c = false) → splitOnPred p s = [s] := by
  intro s
  induction s with
  | nil => intro _; rfl
  | cons c rest ih =>
    intro h
    have hrest := ih (fun x hx => h x (List.mem_cons_of_mem _ hx))
    have hc := h c (List.mem_cons_self _ _)
    simp [splitOnPred, hrest, hc]

theorem parseParts_single {t : Str} (h1 : (0x7C : Nat) ∉ t)
    (h2 : strContains t (ofString " - ") = false) :
    parseParts t = [trimStr t] := by
  unfold parseParts
  rw [replaceAllStr_of_not_contains h2,
    splitOnPred_single _ t (fun c hc => by
      have hne : c ≠ 0x7C := fun e => h1 (e ▸ hc)
      simp [hne])]
  rfl

theorem applySentinel_nil : applySentinel [] = generalSentinel := by decide

/-- C9: a title containing no `"|"` and no `" - "` splits into a single
segment; the parser returns that trimmed segment as the chapter label and
the sentinel `"تلاوات عامة"` as the reciter. -/
theorem c9_single_segment (t : Str) (h1 : (0x7C : Nat) ∉ t)
    (h2 : strContains t (ofString " - ") = false) :
    parseTitle t = (trimStr t, generalSentinel) := by
  have hparts := parseParts_single h1 h2
  have hsur : (parseParts t).getD 0 [] = trimStr t := by rw [hparts]; rfl
  by_cases ha : pArabicMarker (trimStr t)
  · have hidx0 : findIndexO pArabicMarker [trimStr t] = some 0 := by
      simp [findIndexO, ha]
    have hidx : findIndexO pArabicMarker (parseParts t) = some 0 := by
      rw [hparts]; exact hidx0
    have hso := surahOf_arabic hidx
    have hfil : filterIdx (fun i =>
        !(findIndexO pArabicMarker [trimStr t] == some i) &&
          !(findIndexO pEnglishMarker [trimStr t] == some i)) 0 [trimStr t] = [] := by
      simp [filterIdx, hidx0]
    have hrj : reciterJoinOf (parseParts t) = [] := by
      rw [hparts]; unfold reciterJoinOf; rw [hfil]; rfl
    have hcore := parseCore_of_truthy hso.2
    unfold parseTitle
    rw [hcore]
    simp only [hso.1, hsur, hrj, applySentinel_nil]
  · by_cases hb : pEnglishMarker (trimStr t)
    · have hidx0A : findIndexO pArabicMarker [trimStr t] = none := by
        simp [findIndexO, ha]
      have hidx0E : findIndexO pEnglishMarker [trimStr t] = some 0 := by
        simp [findIndexO, hb]
      have hidxA : findIndexO pArabicMarker (parseParts t) = none := by
        rw [hparts]; exact hidx0A
      have hidxE : findIndexO pEnglishMarker (parseParts t) = some 0 := by
        rw [hparts]; exact hidx0E
      have hso := surahOf_english hidxA hidxE
      have hfil : filterIdx (fun i =>
          !(findIndexO pArabicMarker [trimStr t] == some i) &&
            !(findIndexO pEnglishMarker [trimStr t] == some i)) 0 [trimStr t] = [] := by
        simp [filterIdx, hidx0E]
      have hrj : reciterJoinOf (parseParts t) = [] := by
        rw [hparts]; unfold reciterJoinOf; rw [hfil]; rfl
      have hcore := parseCore_of_truthy hso.2
      unfold parseTitle
      rw [hcore]
      simp only [hso.1, hsur, hrj, applySentinel_nil]
    · have hidx0A : findIndexO pArabicMarker [trimStr t] = none := by
        simp [findIndexO, ha]
      have hidx0E : findIndexO pEnglishMarker [trimStr t] = none := by
        simp [findIndexO, hb]
      have hso0 : surahOf [trimStr t] = [] := surahOf_none hidx0A hidx0E
      have hcore : parseCore t = (trimStr t, []) := by
        unfold parseCore
        rw [hparts]
        simp only [hso0]
        simp [strTruthy, joinWith]
      unfold parseTitle
      rw [hcore]
      simp only [applySentinel_nil]

theorem c9_witness :
    (0x7C : Nat) ∉ ofString "القارئ غير معروف" ∧
    parseTitle (ofString "القارئ غير معروف") =
      (trimStr (ofString "القارئ غير معروف"), generalSentinel) :=
  ⟨by decide, c9_single_segment _ (by decide) (by decide)⟩

/-- C10: on the marker-less title `"abc | | "` the fallback joins the
already-trimmed remaining segments without re-trimming, yielding the
whitespace-only reciter `" "`; sentinel substitution tests only the exact
empty string and the two "unknown" literals, so the whitespace-only
reciter is returned as-is. -/
theorem c10_whitespace_reciter :
    parseTitle (ofString "abc | | ") = (ofString "abc", ofString " ") ∧
    ((parseTitle (ofString "abc | | ")).2).all isWsJS = true ∧
    (parseTitle (ofString "abc | | ")).2 ≠ [] ∧
    (parseTitle (ofString "abc | | ")).2 ≠ generalSentinel := by decide

/-! ## Search-filter lemmas -/

theorem normalizeArabic_append (a b : Str) :
    normalizeArabic (a ++ b) = normalizeArabic a ++ normalizeArabic b := by
  simp [normalizeArabic]

theorem queryTerms_ne_nil_shape (q : Str) :
    queryTermsOf q =
      (splitOnPred (fun c => c == 32) (normalizeArabic q)).filter
        (fun t1 => decide (t1 ≠ [])) := by
  unfold queryTermsOf
  apply List.filter_congr
  intro x _
  cases x <;> simp

theorem episodeQueryPred_eq (q : Str) (e : Episode) :
    episodeQueryPred q e =
      ((splitOnPred (fun c => c == 32) (normalizeArabic q)).filter
          (fun t1 => decide (t1 ≠ []))).all
        (fun term =>
          strContains (normalizeArabic (e.surah ++ [32] ++ e.reciter)) term) := by
  unfold episodeQueryPred
  rw [← queryTerms_ne_nil_shape]
  congr 1
  funext term
  rw [normalizeArabic_append, normalizeArabic_append]
  rfl

/-- C2 (amended): for every episode collection and non-empty query, the
query filter keeps exactly the episodes for which every term of the
normalized query — split on the single space character U+0020, not on
general whitespace, dropping empty terms — occurs as a substring of the
normalization of `surah ++ " " ++ reciter` (AND semantics across terms,
substring containment per term). The unamended claim's splitting on
arbitrary whitespace fails on queries containing a tab — see the
counterexample. -/
theorem c2_query_filter (episodes : List Episode) (q : Str) (h : q ≠ []) :
    queryFilterStage episodes q =
      episodes.filter
        (fun e =>
          ((splitOnPred (fun c => c == 32) (normalizeArabic q)).filter
              (fun t1 => decide (t1 ≠ []))).all
            (fun term =>
              strContains (normalizeArabic (e.surah ++ [32] ++ e.reciter)) term)) := by
  have ht : strTruthy q = true := by
    cases q with
    | nil => exact absurd rfl h
    | cons c cs => rfl
  unfold queryFilterStage
  rw [if_pos ht]
  exact List.filter_congr (fun e _ => episodeQueryPred_eq q e)

/-- C2, counterexample to the unamended claim: with the query `"a\tb"`
(tab-separated) against an episode whose combined text is `"a b"`, the
claim's whitespace-splitting keeps the episode, but the code splits only
on spaces, obtains the single term `"a\tb"`, and drops the episode. -/
theorem c2_counterexample :
    claimKeepsC2 (ofString "a\tb") epAB = true ∧
    queryFilterStage [epAB] (ofString "a\tb") = [] := by decide

theorem c2_witness :
    queryFilterStage [epBaqara] (ofString "بقرة") = [epBaqara] := by
  rw [c2_query_filter [epBaqara] (ofString "بقرة") (by decide)]
  decide

/-! ## Extractor lemmas -/

theorem extractLoop_eq_filter (ch : Str) (r : Nat → Str) :
    ∀ (k : Nat) (items : List Str),
      extractLoop ch r k items =
        (processedAll ch r k items).filter (fun e => strTruthy e.url) := by
  intro k items
  induction items generalizing k with
  | nil => rfl
  | cons c rest ih =>
    simp only [extractLoop, processedAll, List.filter_cons]
    by_cases h : strTruthy (processItem ch (r k) c).url <;> simp [h, ih]

/-- C3: on every feed text, the extractor retains exactly the processed
items whose extracted enclosure URL is non-empty — an item with an empty
or missing URL is dropped individually, the others are unaffected, and
this filter is the sole admission criterion — so every Episode in the
output has a non-empty `url`. -/
theorem c3_admission_filter (randIds : Nat → Str) (xmlText : Str) :
    extractEpisodes randIds xmlText =
      (processedAll (channelImageOf xmlText) randIds 0 (findItems xmlText)).filter
        (fun e => strTruthy e.url) ∧
    ∀ e ∈ extractEpisodes randIds xmlText, e.url ≠ [] := by
  have h := extractLoop_eq_filter (channelImageOf xmlText) randIds 0 (findItems xmlText)
  refine ⟨h, ?_⟩
  intro e he
  rw [extractEpisodes, h] at he
  have ht := (List.mem_filter.mp he).2
  exact strTruthy_ne_nil ht

theorem c3_witness :
    extractEpisodes (fun _ => []) xmlOneItem =
      (processedAll (channelImageOf xmlOneItem) (fun _ => []) 0
          (findItems xmlOneItem)).filter (fun e => strTruthy e.url) ∧
    epFromXmlOneItem.url ≠ [] :=
  ⟨(c3_admission_filter (fun _ => []) xmlOneItem).1,
    (c3_admission_filter (fun _ => []) xmlOneItem).2 epFromXmlOneItem (by decide)⟩

theorem mem_extractLoop (ch : Str) (r : Nat → Str) :
    ∀ (k : Nat) (items : List Str) (e : Episode), e ∈ extractLoop ch r k items →
      ∃ k2 c, e = processItem ch (r k2) c := by
  intro k items
  induction items generalizing k with
  | nil => intro e he; simp [extractLoop] at he
  | cons cnt rest ih =>
    intro e he
    simp only [extractLoop] at he
    by_cases h : strTruthy (processItem ch (r k) cnt).url
    · rw [if_pos h] at he
      rcases List.mem_cons.mp he with rfl | hm
      · exact ⟨k, cnt, rfl⟩
      · exact ih (k + 1) e hm
    · rw [if_neg h] at he
      exact ih (k + 1) e he

theorem processItem_reciter (ch fid c : Str) :
    (processItem ch fid c).reciter = applySentinel (parseCore (titleOf c)).2 := rfl

theorem applySentinel_ok (r : Str) :
    applySentinel r ≠ [] ∧ applySentinel r ≠ unknownAr ∧
      applySentinel r ≠ unknownEn := by
  unfold applySentinel
  by_cases h : (!strTruthy r || r == unknownAr || r == unknownEn) = true
  · rw [if_pos h]
    exact ⟨by decide, by decide, by decide⟩
  · rw [if_neg h]
    simp only [Bool.or_eq_true, Bool.not_eq_true', beq_iff_eq, not_or] at h
    obtain ⟨⟨h1, h2⟩, h3⟩ := h
    exact ⟨strTruthy_ne_nil (by simpa using h1), h2, h3⟩

/-- C4: every Episode produced by the extractor has a reciter that is
neither empty nor one of the recognized "unknown" literals, and whenever
the parsed pre-sentinel reciter is empty or one of those literals, the
stored reciter is the fixed sentinel `"تلاوات عامة"`. -/
theorem c4_reciter_never_unknown :
    (∀ (randIds : Nat → Str) (xmlText : Str), ∀ e ∈ extractEpisodes randIds xmlText,
      e.reciter ≠ [] ∧ e.reciter ≠ unknownAr ∧ e.reciter ≠ unknownEn) ∧
    ∀ t : Str,
      (parseCore t).2 = [] ∨ (parseCore t).2 = unknownAr ∨ (parseCore t).2 = unknownEn →
        (parseTitle t).2 = generalSentinel := by
  constructor
  · intro r xml e he
    rw [extractEpisodes] at he
    obtain ⟨k, c, rfl⟩ := mem_extractLoop _ _ 0 _ e he
    rw [processItem_reciter]
    exact applySentinel_ok _
  · intro t ht
    have hc : (!strTruthy (parseCore t).2 || (parseCore t).2 == unknownAr ||
        (parseCore t).2 == unknownEn) = true := by
      rcases ht with h | h | h <;> simp [h, strTruthy]
    unfold parseTitle applySentinel
    rw [if_pos hc]

theorem c4_witness :
    (epFromXmlOneItem.reciter ≠ [] ∧ epFromXmlOneItem.reciter ≠ unknownAr ∧
      epFromXmlOneItem.reciter ≠ unknownEn) ∧
    (parseTitle unknownAr).2 = generalSentinel :=
  ⟨c4_reciter_never_unknown.1 (fun _ => []) xmlOneItem epFromXmlOneItem (by decide),
    c4_reciter_never_unknown.2 unknownAr (Or.inl (by decide))⟩

/-- C5: the extractor never raises to its caller — the embedding is a
total function — and each failure mode yields the empty sequence: a
thrown fetch error is caught, a non-ok response throws inside the try and
is caught, and a body on which the item pattern produces no matches
extracts nothing. -/
theorem c5_errors_absorbed (randIds : Nat → Str) :
    getPodcastEpisodes randIds .fetchFailure = [] ∧
    (∀ body, getPodcastEpisodes randIds (.response false body) = []) ∧
    ∀ body, findItems body = [] →
      getPodcastEpisodes randIds (.response true body) = [] := by
  refine ⟨rfl, fun body => rfl, fun body h => ?_⟩
  simp [getPodcastEpisodes, extractEpisodes, h, extractLoop]

theorem c5_witness :
    getPodcastEpisodes (fun _ => []) .fetchFailure = [] ∧
    getPodcastEpisodes (fun _ => []) (.response false (ofString "<item>x</item>")) = [] ∧
    getPodcastEpisodes (fun _ => []) (.response true (ofString "no items here")) = [] :=
  ⟨(c5_errors_absorbed (fun _ => [])).1,
    (c5_errors_absorbed (fun _ => [])).2.1 _,
    (c5_errors_absorbed (fun _ => [])).2.2 _ (by decide)⟩

/-- C8 (code bug): `filteredEpisodes` is not pure. When the selected
reciter is the `"All"` sentinel and the query is empty, neither filter
creates a fresh array, so `result` aliases the `episodes` state array and
`Array.prototype.sort` reorders that shared array in place — here the
input `[Al-Baqarah, Al-Fatihah]` is left as `[Al-Fatihah, Al-Baqarah]` —
while any active filter leaves the input unchanged, as the claim states. -/
theorem c8_sort_mutates_episodes :
    (filteredEpisodesRun [epBaqara, epFatiha] (ofString "All") []).2 ≠
      [epBaqara, epFatiha] ∧
    (filteredEpisodesRun [epBaqara, epFatiha] (ofString "All") []).2 =
      [epFatiha, epBaqara] ∧
    (filteredEpisodesRun [epBaqara, epFatiha] generalSentinel []).2 =
      [epBaqara, epFatiha] ∧
    (filteredEpisodesRun [epBaqara, epFatiha] (ofString "All") (ofString "ب")).2 =
      [epBaqara, epFatiha] := by decide
